import Mathlib

/-!
Verification of the RoboScientist `datasets` component
(`equations_utils.py`, `equations_base.py`).

The Python code is shallowly embedded:

* sympy expressions become the inductive type `SymExpr` (symbols, numeric
  literals modelled as rationals, and operator applications whose head is the
  sympy type name such as `Add`, `Mul`, `Pow`, `sin`);
* string-building code (`construct_symbol`, regexes over `srepr` output)
  is modelled over `List Char`;
* fallible Python code (stack pops, `None` subscripts, missing columns)
  returns `Option`;
* the process-wide random generator is modelled as oracles passed to the
  generation routines (a picking oracle and a shuffling oracle);
* the external sympy calls `sympify`/`simplify`/`srepr` are handled as
  follows: `sympify` of a well-formed structural string is the identity on
  the structural reading (it is the parsing left inverse of serialization),
  and `simplify` is kept as an explicit function parameter constrained only
  by the hypotheses a theorem needs;
* `networkx.from_prufer_sequence` and `networkx.bfs_tree` are modelled by
  the textbook algorithms they implement (documented at the definitions).

The repository modules `equations_settings` and `base` are imported by the
two source files but are not part of the sources; the constants they supply
are modelled from the specification (see `CONST_BASE_NAME`).
-/

namespace Robo

/-! ## Character-level string utilities

`equations_utils.py` builds expressions as Python strings such as
`Symbol('const')`.  We model these strings as `List Char`; the apostrophe
character is written via its code point. -/

/-- The apostrophe character `'` used by `construct_symbol`. -/
def quoteC : Char := Char.ofNat 39

/-- Modelled from the spec: `equations_settings.CONST_BASE_NAME` (the module
is not in `src/`); §6 of the spec fixes it to the literal string `const`. -/
def CONST_BASE_NAME : String := "const"

/-- The characters of `CONST_BASE_NAME`. -/
def constChars : List Char := ['c', 'o', 'n', 's', 't']

/-- `construct_symbol(name)` from `equations_utils.py`:
`"Symbol('{}')".format(name)`, at the character-list level. -/
def construct_symbol (name : List Char) : List Char :=
  ['S', 'y', 'm', 'b', 'o', 'l', '(', quoteC] ++ name ++ [quoteC, ')']

/-- The pattern `Symbol('const')` that the regular expression in
`enumerate_constants_in_expression` matches literally. -/
def constPat : List Char := construct_symbol constChars

/-- The replacement `Symbol('const{i}')` produced by `_EnumerateConstant`
for counter value `i`. -/
def constRepl (i : Nat) : List Char :=
  construct_symbol (constChars ++ (toString i).toList)

/-- `b` occurs as a contiguous run inside `l` starting at position `i`. -/
def occursAt (pat l : List Char) (i : Nat) : Prop :=
  pat.isPrefixOf (l.drop i)

instance (pat l : List Char) (i : Nat) : Decidable (occursAt pat l i) := by
  unfold occursAt; infer_instance

/-- `re.sub` with the stateful `_EnumerateConstant` callable: scan left to
right; at each position, if the literal pattern `Symbol('const')` starts
there, emit `Symbol('const{n}')`, bump the counter, and continue after the
match (matches do not overlap); otherwise keep the character. -/
def enumAux : List Char → Nat → List Char
  | [], _ => []
  | c :: rest, n =>
    if constPat.isPrefixOf (c :: rest) then
      constRepl n ++ enumAux (rest.drop (constPat.length - 1)) (n + 1)
    else
      c :: enumAux rest n
termination_by l _ => l.length
decreasing_by
  · simp only [List.length_cons]
    have h := List.length_drop (constPat.length - 1) rest
    omega
  · simp [List.length_cons]

/-- `enumerate_constants_in_expression(expr)` from `equations_utils.py`:
replace the occurrences of `Symbol('const')` with freshly numbered
constant symbols, the counter starting at `0`. -/
def enumerate_constants_in_expression (expr : List Char) : List Char :=
  enumAux expr 0

/-! ## Symbolic expressions

The sympy expression values this system builds: named symbols, numeric
literals (sympy floats/integers, modelled as rationals), and operator or
function applications (`Add`, `Mul`, `Pow`, named functions), whose token
in the serializations is the sympy type name.  A mutual inductive is used
so that structural recursion and induction over the child list are
straightforward. -/

mutual

inductive SymExpr where
  | sym : String → SymExpr
  | num : ℚ → SymExpr
  | app : String → SymExprList → SymExpr
deriving DecidableEq

inductive SymExprList where
  | nil : SymExprList
  | cons : SymExpr → SymExprList → SymExprList
deriving DecidableEq

end

/-- Convert a Lean list of expressions into a `SymExprList`. -/
def SymExprList.ofList : List SymExpr → SymExprList
  | [] => .nil
  | e :: es => .cons e (SymExprList.ofList es)

/-- Convert a `SymExprList` back into a Lean list. -/
def SymExprList.toList : SymExprList → List SymExpr
  | .nil => []
  | .cons e es => e :: es.toList

/-- `len(expr.args)` for a `SymExprList`. -/
def SymExprList.length : SymExprList → Nat
  | .nil => 0
  | .cons _ es => es.length + 1

/-! ## Postfix / infix token sequences

`expr_to_postfix` walks `sympy.postorder_traversal(expr)` and, for every
visited node, appends the node's number of children to the arity sequence
and the node's token to the token sequence: the symbol's name for a symbol
leaf, the sympy type name for `Function`/`Add`/`Mul`/`Pow` nodes, and
`float(node)` for a numeric leaf.  `expr_to_infix` does the same in
preorder.  Tokens are therefore either strings or numbers. -/

/-- A token of the postfix/infix serializations: a string (symbol name or
sympy type name) or a numeric literal. -/
inductive Tok where
  | str : String → Tok
  | num : ℚ → Tok
deriving DecidableEq

mutual

/-- `expr_to_postfix(expr)` from `equations_utils.py`: the pair
`(post, post_arity)` produced by postorder traversal (children in order,
then the node itself). -/
def expr_to_postfix_tokens : SymExpr → List Tok × List Nat
  | .sym s => ([.str s], [0])
  | .num q => ([.num q], [0])
  | .app f args =>
    let p := postfix_tokens_of_list args
    (p.1 ++ [.str f], p.2 ++ [args.length])

/-- Postorder traversal of a child list, left to right. -/
def postfix_tokens_of_list : SymExprList → List Tok × List Nat
  | .nil => ([], [])
  | .cons e es =>
    let p := expr_to_postfix_tokens e
    let q := postfix_tokens_of_list es
    (p.1 ++ q.1, p.2 ++ q.2)

end

mutual

/-- `expr_to_infix(expr)` from `equations_utils.py`: the pair
`(pre, pre_arity)` produced by preorder traversal (the node itself, then
its children in order). -/
def expr_to_infix_tokens : SymExpr → List Tok × List Nat
  | .sym s => ([.str s], [0])
  | .num q => ([.num q], [0])
  | .app f args =>
    let p := infix_tokens_of_list args
    (.str f :: p.1, args.length :: p.2)

/-- Preorder traversal of a child list, left to right. -/
def infix_tokens_of_list : SymExprList → List Tok × List Nat
  | .nil => ([], [])
  | .cons e es =>
    let p := expr_to_infix_tokens e
    let q := infix_tokens_of_list es
    (p.1 ++ q.1, p.2 ++ q.2)

end

/-- `symbol_or_constant(x)` inside `postfix_to_expr`: a string token is
wrapped as a named-symbol constructor, a numeric token as its literal
form; after the final `sympify` these denote a symbol leaf and a numeric
leaf. -/
def symbol_or_constant : Tok → SymExpr
  | .str s => .sym s
  | .num q => .num q

/-- One step of the stack reduction in `postfix_to_expr`.  The Python
stack grows by `append` at the end and `pop`s from the end; we keep that
orientation, so index `0` is the earliest-pushed item.  A zero-arity token
is pushed as a leaf.  For arity `k > 0` the code pops `k` items (an
`IndexError` on an empty stack if fewer are present, modelled as `none`),
reverses them, and pushes the call `tok(arg1,...,argk)`; joining with a
non-string head is a `TypeError`, also modelled as `none`. -/
def pf_step (stack : List SymExpr) (t : Tok) (ar : Nat) : Option (List SymExpr) :=
  if ar = 0 then
    some (stack ++ [symbol_or_constant t])
  else
    match t with
    | .str f =>
      if ar ≤ stack.length then
        some (stack.take (stack.length - ar) ++
          [.app f (SymExprList.ofList (stack.drop (stack.length - ar)))])
      else none
    | .num _ => none

/-- The `for arg, arg_arity in zip(post, post_arity)` loop of
`postfix_to_expr`, threading the stack. -/
def pf_run : List (Tok × Nat) → List SymExpr → Option (List SymExpr)
  | [], stack => some stack
  | (t, a) :: rest, stack =>
    match pf_step stack t a with
    | some stack' => pf_run rest stack'
    | none => none

/-- `postfix_to_expr(post, post_arity)` from `equations_utils.py`: run the
stack reduction over `zip(post, post_arity)` and return
`sympify(stack[0])` — the *earliest-pushed* remaining stack item
(`stack[0]` is the bottom of a Python append/pop stack); an empty final
stack is an `IndexError`, modelled as `none`. -/
def postfix_to_expr (post : List Tok) (post_arity : List Nat) : Option SymExpr :=
  match pf_run (post.zip post_arity) [] with
  | some stack => stack.head?
  | none => none

/-- Is a `SymExprList` empty? -/
def SymExprList.isNil : SymExprList → Bool
  | .nil => true
  | .cons _ _ => false

mutual

/-- Every application node has at least one argument.  This holds of every
expression sympy builds (`Add`, `Mul`, `Pow` and applied functions always
carry arguments; symbols and numbers are leaves), in particular of every
expression produced by `graph_to_expression`. -/
def arityPos : SymExpr → Bool
  | .sym _ => true
  | .num _ => true
  | .app _ args => !args.isNil && arityPosList args

/-- `arityPos` for every member of a child list. -/
def arityPosList : SymExprList → Bool
  | .nil => true
  | .cons e es => arityPos e && arityPosList es

end

/-! ## The equation wrapper (`equations_base.py`)

`BaseEquation` wraps one expression; its `variables` / `free_variables` /
`constants` properties scan `expr.atoms()` (an unordered set — modelled as
the deduplicated preorder list of symbol leaves) and classify by whether
the name contains `CONST_BASE_NAME`.  `lambdify` compiles an expression to
a numeric evaluator over named arguments; it is modelled by `evalE` on the
operator fragment this system generates, vectorized here as one value per
row of the sample array `X`. -/

/-- Does `pat` occur as a contiguous substring of `l`?  (Python's `in` on
strings.) -/
def hasSubL (l pat : List Char) : Bool :=
  (List.range (l.length + 1)).any (fun i => pat.isPrefixOf (l.drop i))

/-- Python `pat in s` for `String`s. -/
def strHasSub (s pat : String) : Bool := hasSubL s.toList pat.toList

/-- Python `s.replace(pat, "")` for a non-empty pattern: remove every
(non-overlapping, left-to-right) occurrence of `pat`.  Written with an
explicit structural fuel (one unit per consumed character, so `l.length`
suffices) so that applications reduce definitionally; `String.replace`
itself is avoided because its byte-position loop does not. -/
def pyRemoveAllFuel (pat : List Char) : Nat → List Char → List Char
  | 0, l => l
  | _ + 1, [] => []
  | fuel + 1, c :: rest =>
    if pat.isPrefixOf (c :: rest) && !pat.isEmpty then
      pyRemoveAllFuel pat fuel (rest.drop (pat.length - 1))
    else
      c :: pyRemoveAllFuel pat fuel rest

/-- `pyRemoveAllFuel` with sufficient fuel. -/
def pyRemoveAll (pat l : List Char) : List Char :=
  pyRemoveAllFuel pat l.length l

/-- Python `int(s)` on the digit-only strings this system produces (the
index part of `x{i}` / `const{i}` names); any other input raises
`ValueError`, modelled as `none`. -/
def parseNatChars (l : List Char) : Option Nat :=
  if l.isEmpty then none
  else
    l.foldl
      (fun acc c =>
        acc.bind (fun a => if c.isDigit then some (a * 10 + (c.toNat - 48)) else none))
      (some 0)

/-- `int(s.replace(pat, ""))` as used for variable and constant indices. -/
def pyIndexOf (name pat : String) : Option Nat :=
  parseNatChars (pyRemoveAll pat.toList name.toList)

mutual

/-- The names of all symbol leaves, in preorder, with repetitions. -/
def symNames : SymExpr → List String
  | .sym s => [s]
  | .num _ => []
  | .app _ args => symNamesList args

/-- `symNames` over a child list. -/
def symNamesList : SymExprList → List String
  | .nil => []
  | .cons e es => symNames e ++ symNamesList es

end

/-- `BaseEquation.variables` (named `variablesOf` here because
`variables` is a reserved word): the distinct symbol atoms of the wrapped
expression (sympy's atom-set iteration order is unspecified; we fix the
deduplicated traversal order). -/
def variablesOf (e : SymExpr) : List String := (symNames e).dedup

/-- `BaseEquation.free_variables`: symbol atoms whose name does not
contain the constant base name. -/
def free_variables (e : SymExpr) : List String :=
  (variablesOf e).filter (fun n => !strHasSub n CONST_BASE_NAME)

/-- `BaseEquation.constants`: symbol atoms whose name contains the
constant base name. -/
def constants (e : SymExpr) : List String :=
  (variablesOf e).filter (fun n => strHasSub n CONST_BASE_NAME)

mutual

/-- Numeric evaluation of an expression under an environment, modelling
the `lambdify`-compiled evaluator on the operator fragment this system
generates (`Add` and `Mul` are n-ary; `Pow` is modelled for integer
exponents; other function heads are left undefined). -/
def evalE : SymExpr → (String → Option ℚ) → Option ℚ
  | .sym s, env => env s
  | .num q, _ => some q
  | .app f args, env =>
    match evalArgs args env with
    | some vs =>
      if f = "Add" then some (vs.foldl (· + ·) 0)
      else if f = "Mul" then some (vs.foldl (· * ·) 1)
      else if f = "Pow" then
        match vs with
        | [b, ex] => if ex.den = 1 then some (b ^ ex.num) else none
        | _ => none
      else none
    | none => none

/-- Evaluate every member of a child list. -/
def evalArgs : SymExprList → (String → Option ℚ) → Option (List ℚ)
  | .nil, _ => some []
  | .cons e es, env =>
    match evalE e env, evalArgs es env with
    | some v, some vs => some (v :: vs)
    | _, _ => none

end

/-- `numpy_to_sympy_array(X, equation)` from `equations_base.py`: for each
free variable `x{i}` bind its name to column `i` of `X`
(`X[:, int(name.replace("x", ""))]`).  A malformed index or a missing
column is a Python error, modelled as `none`. -/
def numpy_to_sympy_array (X : List (List ℚ)) (e : SymExpr) :
    Option (List (String × List ℚ)) :=
  (free_variables e).mapM (fun name => do
    let j ← pyIndexOf name "x"
    let col ← X.mapM (fun row => row[j]?)
    pure (name, col))

/-- `numpy_to_sympy_constants(constants, equation)` from
`equations_base.py`: for each constant symbol `const{i}` bind its name to
`constants[i]`.  When the wrapped expression has constant symbols and
`constants` is `None` the subscript `None[i]` is a `TypeError`, and an
out-of-range index is an `IndexError`; both are modelled as `none`.  When
the expression has no constant symbols the loop body never runs and the
result is the empty binding. -/
def numpy_to_sympy_constants (cs : Option (List ℚ)) (e : SymExpr) :
    Option (List (String × ℚ)) :=
  (constants e).mapM (fun name => do
    let j ← pyIndexOf name CONST_BASE_NAME
    let arr ← cs
    let v ← arr[j]?
    pure (name, v))

/-- `BaseEquation.func(X, constants)`: build the two name bindings and
apply the compiled evaluator; with numpy column arrays the evaluation is
elementwise, modelled as one value per row of `X`. -/
def func (e : SymExpr) (X : List (List ℚ)) (cs : Option (List ℚ)) :
    Option (List ℚ) := do
  let xd ← numpy_to_sympy_array X e
  let cd ← numpy_to_sympy_constants cs e
  (List.range X.length).mapM (fun i =>
    evalE e (fun name =>
      match xd.lookup name with
      | some col => col[i]?
      | none => cd.lookup name))

mutual

/-- `sympy.Basic.subs` with a name-to-number mapping: replace each bound
symbol leaf by its numeric value. -/
def substE : SymExpr → List (String × ℚ) → SymExpr
  | .sym s, d =>
    match d.lookup s with
    | some q => .num q
    | none => .sym s
  | .num q, _ => .num q
  | .app f args, d => .app f (substL args d)

/-- `substE` over a child list. -/
def substL : SymExprList → List (String × ℚ) → SymExprList
  | .nil, _ => .nil
  | .cons e es, d => .cons (substE e d) (substL es d)

end

/-- `BaseEquation.subs(constants)` from `equations_base.py`: build the
constant binding via `numpy_to_sympy_constants` (which fails when
`constants` is absent but the expression has constant symbols) and
substitute it into the wrapped expression. -/
def subs (e : SymExpr) (cs : Option (List ℚ)) : Option SymExpr := do
  let cd ← numpy_to_sympy_constants cs e
  pure (substE e cd)

/-- Outcome of a Python call: a value, or an uncaught `TypeError`. -/
inductive PyResult (α : Type) where
  | ok : α → PyResult α
  | typeError : PyResult α
deriving DecidableEq

/-- `BaseEquation.derivative_wrt_x(X, constants)` executes
`return NotImplemented("")`.  In Python `NotImplemented` is the
non-callable `NotImplementedType` singleton, so evaluating the call
expression raises `TypeError: 'NotImplementedType' object is not
callable` before anything is computed or returned. -/
def derivative_wrt_x (_X : List (List ℚ)) (_cs : Option (List ℚ)) :
    PyResult (List ℚ) :=
  PyResult.typeError

/-! ## Labeled trees and `graph_to_expression`

The generation pipeline labels a directed tree (`networkx.DiGraph` whose
nodes carry an `expr` string attribute) and folds it to an expression
string.  A labeled tree is modelled as a rose tree whose node label is the
attribute string and whose child order is the graph's edge order. -/

mutual

inductive LTree where
  | node : List Char → LTreeList → LTree

inductive LTreeList where
  | nil : LTreeList
  | cons : LTree → LTreeList → LTreeList

end

/-- The opening part `Symbol(` of the regular expression
`Symbol\((.*?)\)` used by `graph_to_expression`. -/
def symbolOpen : List Char := ['S', 'y', 'm', 'b', 'o', 'l', '(']

/-- `re.findall(r"Symbol\((.*?)\)", expr)`: scan left to right; at each
match of `Symbol(` capture lazily up to the next `)` and continue after
it; a `Symbol(` with no later `)` cannot match. -/
def findSymbolArgs : List Char → List (List Char)
  | [] => []
  | c :: rest =>
    if symbolOpen.isPrefixOf (c :: rest) then
      let tail := rest.drop (symbolOpen.length - 1)
      if tail.any (fun x => x = ')') then
        tail.takeWhile (fun x => x ≠ ')') ::
          findSymbolArgs ((tail.dropWhile (fun x => x ≠ ')')).drop 1)
      else findSymbolArgs rest
    else findSymbolArgs rest
termination_by l => l.length
decreasing_by
  · simp only [List.length_cons]
    have h1 : ((rest.drop (symbolOpen.length - 1)).dropWhile (fun x => x ≠ ')')).length ≤
        (rest.drop (symbolOpen.length - 1)).length :=
      (List.dropWhile_sublist _).length_le
    have h2 := List.length_drop (symbolOpen.length - 1) rest
    have h3 := List.length_drop 1
      ((rest.drop (symbolOpen.length - 1)).dropWhile (fun x => x ≠ ')'))
    omega
  · simp [List.length_cons]
  · simp [List.length_cons]

mutual

/-- The recursive part of `graph_to_expression(D, node)` (lines 89–109 of
`equations_utils.py`): a leaf yields its label verbatim; an internal node
with a non-empty label yields `label(child1,...,childk)` unless every
symbol occurring in that string contains the constant base name, in which
case the whole subexpression collapses to `Symbol('const')`; an internal
node with an empty label yields its first child's expression
(`list(D[node].keys())[0]`), ignoring all other children. -/
def graph_to_expression_aux : LTree → List Char
  | .node lbl .nil => lbl
  | .node lbl (.cons c cs) =>
    if lbl = [] then graph_to_expression_aux c
    else
      let s := lbl ++ ['('] ++ joinChildren (.cons c cs) ++ [')']
      let syms := findSymbolArgs s
      if !syms.isEmpty && syms.all (fun t => hasSubL t constChars) then constPat
      else s

/-- `",".join(child expressions)`. -/
def joinChildren : LTreeList → List Char
  | .nil => []
  | .cons c .nil => graph_to_expression_aux c
  | .cons c ds@(.cons _ _) =>
    graph_to_expression_aux c ++ [','] ++ joinChildren ds

end

mutual

/-- The expression-level effect of
`sympify(enumerate_constants_in_expression(srepr(expr)))` in
`graph_to_expression`: `srepr` prints the expression structurally (leaves
appear left to right in preorder, a symbol named `name` printing as
`Symbol('name')`, matched by the regex exactly when `name` is the bare
constant base name), the regex rewrites the i-th such occurrence to
`Symbol('const{i}')`, and `sympify` parses the result back.  Net effect:
renumber the `const`-named leaves left to right with a running counter. -/
def renumberE : SymExpr → Nat → SymExpr × Nat
  | .sym s, k =>
    if s = CONST_BASE_NAME then (.sym (CONST_BASE_NAME ++ toString k), k + 1)
    else (.sym s, k)
  | .num q, k => (.num q, k)
  | .app f args, k =>
    let p := renumberL args k
    (.app f p.1, p.2)

/-- `renumberE` threaded left to right over a child list. -/
def renumberL : SymExprList → Nat → SymExprList × Nat
  | .nil, k => (.nil, k)
  | .cons e es, k =>
    let p := renumberE e k
    let q := renumberL es p.2
    (.cons p.1 q.1, q.2)

end

mutual

/-- Names of `const`-containing symbol leaves in preorder (the textual
order in which they appear in `srepr` output), with repetitions. -/
def constNames : SymExpr → List String
  | .sym s => if strHasSub s CONST_BASE_NAME then [s] else []
  | .num _ => []
  | .app _ args => constNamesList args

/-- `constNames` over a child list. -/
def constNamesList : SymExprList → List String
  | .nil => []
  | .cons e es => constNames e ++ constNamesList es

end

mutual

/-- The number of leaves named exactly `const` (the occurrences the
enumeration regex matches). -/
def constLeafCount : SymExpr → Nat
  | .sym s => if s = CONST_BASE_NAME then 1 else 0
  | .num _ => 0
  | .app _ args => constLeafCountList args

/-- `constLeafCount` over a child list. -/
def constLeafCountList : SymExprList → Nat
  | .nil => 0
  | .cons e es => constLeafCount e + constLeafCountList es

end

/-- `graph_to_expression(D, node=0)`, root post-processing included
(lines 111–117): fold the tree to a raw string, parse and simplify it with
the algebra engine (`simp1`, the composite `simplify ∘ sympify`, kept as an
explicit parameter since it is an external sympy call), renumber the
constant symbols via the `srepr`/regex/`sympify` round trip (modelled by
`renumberE`, see there), and simplify again (`simp2`). -/
def graph_to_expression (simp1 : List Char → SymExpr) (simp2 : SymExpr → SymExpr)
    (t : LTree) : SymExpr :=
  simp2 ((renumberE (simp1 (graph_to_expression_aux t)) 0).1)

/-! ## Random tree generation (`generate_random_tree_with_prior_on_arity`)

The source builds a Prüfer sequence by repeated weighted sampling (numpy's
global generator), shuffles it, truncates it to length `n`, decodes it with
`networkx.from_prufer_sequence`, and re-roots with `networkx.bfs_tree`.
Randomness is modelled by two oracles: `pick`, choosing an element of the
current candidate pool (the weighting by `degreeness` only shapes the
distribution, not the support), and `shuffle`, an arbitrary permutation.
The two networkx dependencies are modelled by the algorithms they
implement: textbook Prüfer decoding (`decodeAux`) and breadth-first search
from node 0 (`bfsLoop`). -/

/-- Textbook Prüfer decoding, as implemented by
`networkx.from_prufer_sequence`: while sequence elements remain, join the
smallest remaining node that does not occur in the remaining sequence (a
leaf) to the first sequence element and retire it; finally join the last
two remaining nodes. -/
def decodeAux : List Nat → List Nat → List (Nat × Nat)
  | [], nodes =>
    match nodes with
    | [u, v] => [(u, v)]
    | _ => []
  | a :: rest, nodes =>
    let l := (nodes.filter (fun x => decide (x ∉ a :: rest))).headD 0
    (l, a) :: decodeAux rest (nodes.erase l)

/-- `networkx.from_prufer_sequence(seq)`: decode over the node set
`{0, ..., len(seq) + 1}`, returned as an undirected edge list. -/
def from_prufer_sequence (seq : List Nat) : List (Nat × Nat) :=
  decodeAux seq (List.range (seq.length + 2))

/-- The undirected neighbours of `u` in an edge list. -/
def nbrs (E : List (Nat × Nat)) (u : Nat) : List Nat :=
  (E.filter (fun p => decide (p.1 = u))).map Prod.snd ++
    (E.filter (fun p => decide (p.2 = u))).map Prod.fst

/-- Visit the neighbours of the dequeued node `u` one by one: a neighbour
not yet visited is enqueued, marked visited, and receives the tree edge
`(u, v)`. -/
def visitNbrs (u : Nat) : List Nat → List Nat → List Nat → List (Nat × Nat) →
    List Nat × List Nat × List (Nat × Nat)
  | [], q, vis, acc => (q, vis, acc)
  | v :: vs, q, vis, acc =>
    if v ∈ vis then visitNbrs u vs q vis acc
    else visitNbrs u vs (q ++ [v]) (vis ++ [v]) (acc ++ [(u, v)])

/-- The breadth-first-search worklist loop of `networkx.bfs_tree`,
fuelled (each iteration dequeues one node; the fuel chosen in `bfs_tree`
is provably sufficient). -/
def bfsLoop (E : List (Nat × Nat)) : Nat → List Nat → List Nat → List (Nat × Nat) →
    List Nat × List (Nat × Nat)
  | 0, _, vis, acc => (vis, acc)
  | _ + 1, [], vis, acc => (vis, acc)
  | fuel + 1, u :: q, vis, acc =>
    let r := visitNbrs u (nbrs E u) q vis acc
    bfsLoop E fuel r.1 r.2.1 r.2.2

/-- `networkx.bfs_tree(G, root)`: the visited nodes and directed tree
edges of a breadth-first search from `root`. -/
def bfs_tree (E : List (Nat × Nat)) (root : Nat) : List Nat × List (Nat × Nat) :=
  bfsLoop E (2 * E.length + 2) [root] [root] []

/-- The candidate pool of one sampling step: values `1..n` whose current
occurrence count in the sequence so far is below `max_degree` (the
`np.delete` loop; counts only grow, so deleting incrementally from the
persistent `nums` array equals recomputing the pool each iteration). -/
def prufer_pool (n max_degree : Nat) (s : List Nat) : List Nat :=
  ((List.range n).map (· + 1)).filter (fun v => decide (s.count v < max_degree))

/-- The `while len(prufer_sequence) < n` sampling loop, seeded with `[0]`;
`pick` models `np.random.choice(nums, p=proba)` (the `degreeness`-powered
weights shape only the distribution, never the support).  The loop always
appends exactly one element, so fuel `n` suffices. -/
def prufer_draw_loop (n max_degree : Nat) (pick : List Nat → Nat) :
    Nat → List Nat → List Nat
  | 0, s => s
  | fuel + 1, s =>
    if s.length < n then
      prufer_draw_loop n max_degree pick fuel (s ++ [pick (prufer_pool n max_degree s)])
    else s

/-- `generate_random_tree_with_prior_on_arity(n, max_degree, degreeness)`
from `equations_utils.py`: sample the Prüfer sequence, shuffle it, truncate
to `n` elements, decode, and re-root by breadth-first search from node 0.
Returns the visited-node list and directed edge list of the BFS tree. -/
def generate_random_tree_with_prior_on_arity (n max_degree : Nat)
    (pick : List Nat → Nat) (shuffle : List Nat → List Nat) :
    List Nat × List (Nat × Nat) :=
  let s := prufer_draw_loop n max_degree pick n [0]
  let seq := (shuffle s).take n
  bfs_tree (from_prufer_sequence seq) 0

/-- Undirected adjacency in an edge list. -/
def adjE (E : List (Nat × Nat)) (x y : Nat) : Prop := (x, y) ∈ E ∨ (y, x) ∈ E

/-- Undirected connectivity in an edge list. -/
def uconn (E : List (Nat × Nat)) : Nat → Nat → Prop :=
  Relation.ReflTransGen (adjE E)

/-- Directed reachability along tree edges. -/
def treeReach (edges : List (Nat × Nat)) : Nat → Nat → Prop :=
  Relation.ReflTransGen (fun a b => (a, b) ∈ edges)

/-- All edge endpoints of an edge list. -/
def nodesOfE (E : List (Nat × Nat)) : List Nat :=
  E.map Prod.fst ++ E.map Prod.snd

/-- The endpoint set of an edge list as a finite set (the measure of BFS
progress). -/
def univFin (E : List (Nat × Nat)) : Finset Nat := (nodesOfE E).toFinset

/-- The invariant of the BFS worklist loop (from node 0): the visited
list has no duplicates; queued nodes are visited; the visited list is the
root followed by the targets of the tree edges in discovery order; every
visited node is reachable from the root along tree edges and connected to
the root in the underlying graph; and every visited node is still queued
or has all its neighbours visited. -/
def BfsInv (E : List (Nat × Nat)) (queue vis : List Nat)
    (acc : List (Nat × Nat)) : Prop :=
  vis.Nodup ∧
  (∀ x ∈ queue, x ∈ vis) ∧
  vis = 0 :: acc.map Prod.snd ∧
  (∀ v ∈ vis, treeReach acc 0 v) ∧
  (∀ v ∈ vis, uconn E 0 v) ∧
  (∀ x ∈ vis, x ∈ queue ∨ ∀ v ∈ nbrs E x, v ∈ vis)

/-- What holds of the visited list and tree edges once the queue has
emptied. -/
def BfsFinal (E : List (Nat × Nat)) (vis : List Nat)
    (acc : List (Nat × Nat)) : Prop :=
  vis.Nodup ∧
  vis = 0 :: acc.map Prod.snd ∧
  (∀ v ∈ vis, treeReach acc 0 v) ∧
  (∀ v ∈ vis, uconn E 0 v) ∧
  (∀ x ∈ vis, ∀ v ∈ nbrs E x, v ∈ vis)

theorem SymExprList.ofList_toList : ∀ es : SymExprList,
    SymExprList.ofList es.toList = es
  | .nil => rfl
  | .cons e es => by
    simp [SymExprList.toList, SymExprList.ofList, SymExprList.ofList_toList es]

theorem SymExprList.length_toList : ∀ es : SymExprList,
    es.toList.length = es.length
  | .nil => rfl
  | .cons e es => by
    simp [SymExprList.toList, SymExprList.length, SymExprList.length_toList es]

mutual

theorem postfix_tokens_length_eq : ∀ e : SymExpr,
    (expr_to_postfix_tokens e).1.length = (expr_to_postfix_tokens e).2.length
  | .sym _ => rfl
  | .num _ => rfl
  | .app f args => by
    simp [expr_to_postfix_tokens, postfix_tokens_of_list_length_eq args]

theorem postfix_tokens_of_list_length_eq : ∀ es : SymExprList,
    (postfix_tokens_of_list es).1.length = (postfix_tokens_of_list es).2.length
  | .nil => rfl
  | .cons e es => by
    simp [postfix_tokens_of_list, postfix_tokens_length_eq e,
      postfix_tokens_of_list_length_eq es]

end

mutual

theorem infix_tokens_length_eq : ∀ e : SymExpr,
    (expr_to_infix_tokens e).1.length = (expr_to_infix_tokens e).2.length
  | .sym _ => rfl
  | .num _ => rfl
  | .app f args => by
    simp [expr_to_infix_tokens, infix_tokens_of_list_length_eq args]

theorem infix_tokens_of_list_length_eq : ∀ es : SymExprList,
    (infix_tokens_of_list es).1.length = (infix_tokens_of_list es).2.length
  | .nil => rfl
  | .cons e es => by
    simp [infix_tokens_of_list, infix_tokens_length_eq e,
      infix_tokens_of_list_length_eq es]

end

theorem pf_run_append (A B : List (Tok × Nat)) (st : List SymExpr) :
    pf_run (A ++ B) st =
      match pf_run A st with
      | some st' => pf_run B st'
      | none => none := by
  induction A generalizing st with
  | nil => rfl
  | cons p rest ih =>
    obtain ⟨t, a⟩ := p
    simp only [List.cons_append, pf_run]
    cases pf_step st t a with
    | some st' => exact ih st'
    | none => rfl

theorem pf_run_single_app (f : String) (n : Nat) (st args' : List SymExpr)
    (hn : n ≠ 0) (hlen : args'.length = n) :
    pf_run [(Tok.str f, n)] (st ++ args') =
      some (st ++ [SymExpr.app f (SymExprList.ofList args')]) := by
  simp only [pf_run, pf_step]
  rw [if_neg hn]
  have hl : (st ++ args').length = st.length + n := by simp [hlen]
  rw [if_pos (by rw [hl]; omega)]
  have ht : (st ++ args').length - n = st.length := by rw [hl]; omega
  rw [ht, List.take_left, List.drop_left]

mutual

theorem pf_run_tokens : ∀ (e : SymExpr) (st : List SymExpr),
    arityPos e = true →
    pf_run ((expr_to_postfix_tokens e).1.zip (expr_to_postfix_tokens e).2) st =
      some (st ++ [e])
  | .sym s, st, _ => rfl
  | .num q, st, _ => rfl
  | .app f args, st, h => by
    have hargs : arityPosList args = true := by
      have := h; unfold arityPos at this
      exact (Bool.and_eq_true_iff.mp this).2
    have hlen0 : args.length ≠ 0 := by
      have := h; unfold arityPos at this
      have h1 := (Bool.and_eq_true_iff.mp this).1
      cases args with
      | nil => simp [SymExprList.isNil] at h1
      | cons a as => simp [SymExprList.length]
    simp only [expr_to_postfix_tokens]
    rw [List.zip_append (postfix_tokens_of_list_length_eq args)]
    rw [pf_run_append, pf_run_tokens_list args st hargs]
    show pf_run [(Tok.str f, args.length)] (st ++ args.toList) = _
    rw [pf_run_single_app f args.length st args.toList hlen0
      (SymExprList.length_toList args)]
    rw [SymExprList.ofList_toList]

theorem pf_run_tokens_list : ∀ (es : SymExprList) (st : List SymExpr),
    arityPosList es = true →
    pf_run ((postfix_tokens_of_list es).1.zip (postfix_tokens_of_list es).2) st =
      some (st ++ es.toList)
  | .nil, st, _ => by simp [postfix_tokens_of_list, pf_run, SymExprList.toList]
  | .cons e es, st, h => by
    have he : arityPos e = true := by
      have := h; unfold arityPosList at this
      exact (Bool.and_eq_true_iff.mp this).1
    have hes : arityPosList es = true := by
      have := h; unfold arityPosList at this
      exact (Bool.and_eq_true_iff.mp this).2
    simp only [postfix_tokens_of_list]
    rw [List.zip_append (postfix_tokens_length_eq e)]
    rw [pf_run_append, pf_run_tokens e st he]
    show pf_run ((postfix_tokens_of_list es).1.zip (postfix_tokens_of_list es).2)
      (st ++ [e]) = _
    rw [pf_run_tokens_list es (st ++ [e]) hes]
    simp [SymExprList.toList]

end

/-! ## Scanner lemmas for `enumerate_constants_in_expression` -/

theorem isPrefixOf_append_self (l b : List Char) : l.isPrefixOf (l ++ b) = true := by
  induction l with
  | nil => simp [List.isPrefixOf]
  | cons c cl ih => simp [List.isPrefixOf, ih]

theorem enumAux_pat (b : List Char) (n : Nat) :
    enumAux (constPat ++ b) n = constRepl n ++ enumAux b (n + 1) := by
  rw [show constPat ++ b = 'S' :: (constPat.drop 1 ++ b) from rfl]
  rw [enumAux]
  have hc : constPat.isPrefixOf ('S' :: (constPat.drop 1 ++ b)) = true := by
    rw [show 'S' :: (constPat.drop 1 ++ b) = constPat ++ b from rfl]
    exact isPrefixOf_append_self _ _
  rw [if_pos hc]
  have hd : (constPat.drop 1 ++ b).drop (constPat.length - 1) = b := by
    rw [show constPat.length - 1 = (constPat.drop 1).length from rfl]
    exact List.drop_left _ _
  rw [hd]

theorem enumAux_no_match (s : List Char) (n : Nat)
    (h : ∀ i, ¬ occursAt constPat s i) : enumAux s n = s := by
  induction s generalizing n with
  | nil => rw [enumAux]
  | cons c rest ih =>
    rw [enumAux]
    rw [if_neg (by simpa [occursAt] using h 0)]
    rw [ih n (fun i => by simpa [occursAt] using h (i + 1))]

theorem enumAux_split : ∀ (a b : List Char) (n : Nat),
    (∀ i, i < a.length → ¬ occursAt constPat (a ++ constPat ++ b) i) →
    enumAux (a ++ constPat ++ b) n = a ++ constRepl n ++ enumAux b (n + 1) := by
  intro a
  induction a with
  | nil =>
    intro b n _
    simpa using enumAux_pat b n
  | cons c arest ih =>
    intro b n h
    have hstep : (c :: arest) ++ constPat ++ b = c :: (arest ++ constPat ++ b) := by
      simp
    rw [hstep, enumAux]
    rw [if_neg ?hc]
    case hc =>
      have h0 := h 0 (by simp)
      rw [hstep] at h0
      simpa [occursAt] using h0
    rw [ih b n ?hh]
    case hh =>
      intro i hi
      have hsucc := h (i + 1) (by simp only [List.length_cons]; omega)
      rw [hstep] at hsucc
      simpa [occursAt] using hsucc
    simp

/-! ## Renumbering lemmas for the constant-naming invariant -/

theorem strHasSub_append_right (s t : String) : strHasSub (s ++ t) s = true := by
  unfold strHasSub hasSubL
  apply List.any_eq_true.mpr
  refine ⟨0, List.mem_range.mpr (by omega), ?_⟩
  rw [List.drop_zero]
  rw [show (s ++ t).toList = s.toList ++ t.toList from rfl]
  exact isPrefixOf_append_self _ _

theorem range'_append_simple (s m n : Nat) :
    List.range' s m ++ List.range' (s + m) n = List.range' s (m + n) := by
  have h := List.range'_append s m n 1
  rw [Nat.one_mul, Nat.add_comm n m] at h
  exact h

mutual

theorem renumberE_counter : ∀ (e : SymExpr) (k : Nat),
    (renumberE e k).2 = k + constLeafCount e
  | .sym s, k => by
    by_cases hs : s = CONST_BASE_NAME <;> simp [renumberE, constLeafCount, hs]
  | .num q, k => by simp [renumberE, constLeafCount]
  | .app f args, k => by
    simp [renumberE, constLeafCount, renumberL_counter args k]

theorem renumberL_counter : ∀ (es : SymExprList) (k : Nat),
    (renumberL es k).2 = k + constLeafCountList es
  | .nil, k => by simp [renumberL, constLeafCountList]
  | .cons e es, k => by
    have h1 := renumberE_counter e k
    have h2 := renumberL_counter es ((renumberE e k).2)
    show (renumberL es (renumberE e k).2).2 = k + constLeafCountList (.cons e es)
    rw [h2, h1]
    simp [constLeafCountList]
    omega

end

mutual

theorem renumberE_names : ∀ (e : SymExpr) (k : Nat),
    (∀ nm ∈ constNames e, nm = CONST_BASE_NAME) →
    constNames (renumberE e k).1 =
      (List.range' k (constLeafCount e)).map (fun i => CONST_BASE_NAME ++ toString i)
  | .sym s, k, h => by
    by_cases hs : s = CONST_BASE_NAME
    · subst hs
      have h1 : strHasSub (CONST_BASE_NAME ++ toString k) CONST_BASE_NAME = true :=
        strHasSub_append_right _ _
      simp [renumberE, constNames, constLeafCount, h1, List.range']
    · have hx : strHasSub s CONST_BASE_NAME = false := by
        cases hx : strHasSub s CONST_BASE_NAME
        · rfl
        · exact absurd (h s (by simp [constNames, hx])) hs
      simp [renumberE, constNames, constLeafCount, hs, hx, List.range']
  | .num q, k, _ => by simp [renumberE, constNames, constLeafCount, List.range']
  | .app f args, k, h => by
    simp only [renumberE, constNames, constLeafCount]
    exact renumberL_names args k (fun nm hnm => h nm (by simpa [constNames] using hnm))

theorem renumberL_names : ∀ (es : SymExprList) (k : Nat),
    (∀ nm ∈ constNamesList es, nm = CONST_BASE_NAME) →
    constNamesList (renumberL es k).1 =
      (List.range' k (constLeafCountList es)).map (fun i => CONST_BASE_NAME ++ toString i)
  | .nil, k, _ => by simp [renumberL, constNamesList, constLeafCountList, List.range']
  | .cons e es, k, h => by
    have h1 : ∀ nm ∈ constNames e, nm = CONST_BASE_NAME := fun nm hnm =>
      h nm (by simp [constNamesList]; exact Or.inl hnm)
    have h2 : ∀ nm ∈ constNamesList es, nm = CONST_BASE_NAME := fun nm hnm =>
      h nm (by simp [constNamesList]; exact Or.inr hnm)
    simp only [renumberL, constNamesList, constLeafCountList]
    rw [renumberE_names e k h1]
    rw [renumberL_names es ((renumberE e k).2) h2]
    rw [renumberE_counter e k]
    rw [← List.map_append, range'_append_simple]

end

/-! ## Substitution with the empty binding -/

mutual

theorem substE_nil : ∀ e : SymExpr, substE e [] = e
  | .sym s => rfl
  | .num q => rfl
  | .app f args => by simp [substE, substL_nil args]

theorem substL_nil : ∀ es : SymExprList, substL es [] = es
  | .nil => rfl
  | .cons e es => by simp [substL, substE_nil e, substL_nil es]

end


/-! ## Graph lemmas for the random-tree generator -/

theorem uconn_mono {E E2 : List (Nat × Nat)} (h : ∀ p ∈ E, p ∈ E2) {x y : Nat}
    (hc : uconn E x y) : uconn E2 x y :=
  Relation.ReflTransGen.mono (fun _ _ hab => hab.imp (h _) (h _)) hc

theorem uconn_symm {E : List (Nat × Nat)} {x y : Nat} (h : uconn E x y) :
    uconn E y x :=
  Relation.ReflTransGen.symmetric (fun _ _ hab => hab.symm) h

theorem treeReach_mono {acc acc2 : List (Nat × Nat)} (h : ∀ p ∈ acc, p ∈ acc2)
    {x y : Nat} (hr : treeReach acc x y) : treeReach acc2 x y :=
  Relation.ReflTransGen.mono (fun _ _ hab => h _ hab) hr

theorem nbrs_adj {E : List (Nat × Nat)} {u v : Nat} (h : v ∈ nbrs E u) :
    adjE E u v := by
  unfold nbrs at h
  rcases List.mem_append.mp h with h1 | h2
  · rcases List.mem_map.mp h1 with ⟨p, hp, rfl⟩
    rcases List.mem_filter.mp hp with ⟨hpE, hpd⟩
    have hfst : p.1 = u := of_decide_eq_true hpd
    left
    have hpe : (u, p.2) = p := by cases p; simp_all
    rw [hpe]
    exact hpE
  · rcases List.mem_map.mp h2 with ⟨p, hp, rfl⟩
    rcases List.mem_filter.mp hp with ⟨hpE, hpd⟩
    have hsnd : p.2 = u := of_decide_eq_true hpd
    right
    have hpe : (p.1, u) = p := by cases p; simp_all
    rw [hpe]
    exact hpE

theorem adj_nbrs {E : List (Nat × Nat)} {u v : Nat} (h : adjE E u v) :
    v ∈ nbrs E u := by
  unfold nbrs
  rcases h with h1 | h2
  · exact List.mem_append_left _
      (List.mem_map.mpr ⟨(u, v), List.mem_filter.mpr ⟨h1, by simp⟩, rfl⟩)
  · exact List.mem_append_right _
      (List.mem_map.mpr ⟨(v, u), List.mem_filter.mpr ⟨h2, by simp⟩, rfl⟩)

theorem nbrs_subset_nodes {E : List (Nat × Nat)} {u v : Nat}
    (h : v ∈ nbrs E u) : v ∈ nodesOfE E := by
  unfold nbrs at h
  unfold nodesOfE
  rcases List.mem_append.mp h with h1 | h2
  · rcases List.mem_map.mp h1 with ⟨p, hp, rfl⟩
    exact List.mem_append_right _
      (List.mem_map.mpr ⟨p, (List.mem_filter.mp hp).1, rfl⟩)
  · rcases List.mem_map.mp h2 with ⟨p, hp, rfl⟩
    exact List.mem_append_left _
      (List.mem_map.mpr ⟨p, (List.mem_filter.mp hp).1, rfl⟩)

theorem uconn_mem_nodes {E : List (Nat × Nat)} {x : Nat} (h : uconn E 0 x) :
    x = 0 ∨ x ∈ nodesOfE E := by
  induction h with
  | refl => exact Or.inl rfl
  | tail hb hr ih =>
    right
    unfold nodesOfE
    rcases hr with h1 | h2
    · exact List.mem_append_right _ (List.mem_map.mpr ⟨_, h1, rfl⟩)
    · exact List.mem_append_left _ (List.mem_map.mpr ⟨_, h2, rfl⟩)

/-! ## Prüfer decoding produces a connected graph on the node set -/

theorem decode_props : ∀ (seq nodes : List Nat),
    nodes.Nodup → nodes.length = seq.length + 2 → (∀ b ∈ seq, b ∈ nodes) →
    (∀ p ∈ decodeAux seq nodes, p.1 ∈ nodes ∧ p.2 ∈ nodes) ∧
    (∀ x ∈ nodes, ∀ y ∈ nodes, uconn (decodeAux seq nodes) x y)
  | [], nodes, _, hlen, _ => by
    obtain ⟨u, v, rfl⟩ : ∃ u v, nodes = [u, v] := by
      cases nodes with
      | nil => simp at hlen
      | cons u t =>
        cases t with
        | nil => simp at hlen
        | cons v t2 =>
          cases t2 with
          | nil => exact ⟨u, v, rfl⟩
          | cons w t3 => simp at hlen
    constructor
    · intro p hp
      have hp' : p = (u, v) := by simpa [decodeAux] using hp
      subst hp'
      simp
    · intro x hx y hy
      have hadj : adjE (decodeAux [] [u, v]) u v :=
        Or.inl (by simp [decodeAux])
      have hx' : x = u ∨ x = v := by simpa using hx
      have hy' : y = u ∨ y = v := by simpa using hy
      rcases hx' with rfl | rfl <;> rcases hy' with rfl | rfl
      · exact Relation.ReflTransGen.refl
      · exact Relation.ReflTransGen.single hadj
      · exact uconn_symm (Relation.ReflTransGen.single hadj)
      · exact Relation.ReflTransGen.refl
  | a :: rest, nodes, hnd, hlen, hsub => by
    have hex : ∃ x, x ∈ nodes ∧ x ∉ a :: rest := by
      by_contra hc
      push_neg at hc
      have hsubset : nodes.toFinset ⊆ (a :: rest).toFinset := by
        intro x hx
        exact List.mem_toFinset.mpr (hc x (List.mem_toFinset.mp hx))
      have h1 : nodes.toFinset.card ≤ (a :: rest).toFinset.card :=
        Finset.card_le_card hsubset
      rw [List.toFinset_card_of_nodup hnd] at h1
      have h2 : (a :: rest).toFinset.card ≤ (a :: rest).length :=
        List.toFinset_card_le _
      simp only [List.length_cons] at h2 hlen
      omega
    have hFne : nodes.filter (fun x => decide (x ∉ a :: rest)) ≠ [] := by
      rcases hex with ⟨x, hxn, hxs⟩
      intro hnil
      have hxF : x ∈ nodes.filter (fun x => decide (x ∉ a :: rest)) :=
        List.mem_filter.mpr ⟨hxn, by simpa using hxs⟩
      rw [hnil] at hxF
      exact absurd hxF (List.not_mem_nil x)
    obtain ⟨f, fs, hFcons⟩ :
        ∃ f fs, nodes.filter (fun x => decide (x ∉ a :: rest)) = f :: fs := by
      cases hFc : nodes.filter (fun x => decide (x ∉ a :: rest)) with
      | nil => exact absurd hFc hFne
      | cons f fs => exact ⟨f, fs, rfl⟩
    have hl_def : (nodes.filter (fun x => decide (x ∉ a :: rest))).headD 0 = f := by
      rw [hFcons]
      rfl
    have hfF : f ∈ nodes.filter (fun x => decide (x ∉ a :: rest)) := by
      rw [hFcons]
      exact List.mem_cons_self _ _
    have hfn : f ∈ nodes := (List.mem_filter.mp hfF).1
    have hfs : f ∉ a :: rest := by
      have hd := (List.mem_filter.mp hfF).2
      simpa using hd
    have hfa : f ≠ a := fun h => hfs (h ▸ List.mem_cons_self a rest)
    have han : a ∈ nodes := hsub a (List.mem_cons_self a rest)
    have hnd' : (nodes.erase f).Nodup := hnd.erase f
    have hlen' : (nodes.erase f).length = rest.length + 2 := by
      rw [List.length_erase_of_mem hfn]
      simp only [List.length_cons] at hlen
      omega
    have hsub' : ∀ b ∈ rest, b ∈ nodes.erase f := by
      intro b hb
      have hbn : b ∈ nodes := hsub b (List.mem_cons_of_mem a hb)
      have hbf : b ≠ f := fun h => hfs (h ▸ List.mem_cons_of_mem a hb)
      exact (List.mem_erase_of_ne hbf).mpr hbn
    obtain ⟨ihmem, ihconn⟩ := decode_props rest (nodes.erase f) hnd' hlen' hsub'
    have hdec : decodeAux (a :: rest) nodes =
        (f, a) :: decodeAux rest (nodes.erase f) := by
      show ((nodes.filter (fun x => decide (x ∉ a :: rest))).headD 0, a) ::
          decodeAux rest
            (nodes.erase ((nodes.filter (fun x => decide (x ∉ a :: rest))).headD 0)) = _
      rw [hl_def]
    rw [hdec]
    constructor
    · intro p hp
      rcases List.mem_cons.mp hp with rfl | hp'
      · exact ⟨hfn, han⟩
      · obtain ⟨h1, h2⟩ := ihmem p hp'
        exact ⟨List.mem_of_mem_erase h1, List.mem_of_mem_erase h2⟩
    · have hEsub : ∀ p ∈ decodeAux rest (nodes.erase f),
          p ∈ (f, a) :: decodeAux rest (nodes.erase f) :=
        fun p hp => List.mem_cons_of_mem _ hp
      have hstep : adjE ((f, a) :: decodeAux rest (nodes.erase f)) f a :=
        Or.inl (List.mem_cons_self _ _)
      have hto_a : ∀ x ∈ nodes, uconn ((f, a) :: decodeAux rest (nodes.erase f)) x a := by
        intro x hx
        by_cases hxf : x = f
        · subst hxf
          exact Relation.ReflTransGen.single hstep
        · have hx' : x ∈ nodes.erase f := (List.mem_erase_of_ne hxf).mpr hx
          have ha' : a ∈ nodes.erase f := (List.mem_erase_of_ne (Ne.symm hfa)).mpr han
          exact uconn_mono hEsub (ihconn x hx' a ha')
      intro x hx y hy
      exact Relation.ReflTransGen.trans (hto_a x hx) (uconn_symm (hto_a y hy))

/-! ## Breadth-first search: invariant preservation and completeness -/

theorem visitNbrs_spec (u : Nat) : ∀ (ns q vis : List Nat) (acc : List (Nat × Nat)),
    ∃ fresh : List Nat,
      visitNbrs u ns q vis acc =
        (q ++ fresh, vis ++ fresh, acc ++ fresh.map (fun v => (u, v))) ∧
      (∀ v ∈ fresh, v ∈ ns ∧ v ∉ vis) ∧
      fresh.Nodup ∧
      (∀ v ∈ ns, v ∈ vis ++ fresh)
  | [], q, vis, acc =>
    ⟨[], by simp [visitNbrs], by simp, List.nodup_nil, by simp⟩
  | v :: vs, q, vis, acc => by
    by_cases hv : v ∈ vis
    · obtain ⟨fresh, heq, hmem, hnd, hcov⟩ := visitNbrs_spec u vs q vis acc
      refine ⟨fresh, ?_, ?_, hnd, ?_⟩
      · rw [visitNbrs, if_pos hv]
        exact heq
      · exact fun w hw => ⟨List.mem_cons_of_mem _ (hmem w hw).1, (hmem w hw).2⟩
      · intro w hw
        rcases List.mem_cons.mp hw with rfl | hw'
        · exact List.mem_append_left _ hv
        · exact hcov w hw'
    · obtain ⟨fresh, heq, hmem, hnd, hcov⟩ :=
        visitNbrs_spec u vs (q ++ [v]) (vis ++ [v]) (acc ++ [(u, v)])
      refine ⟨v :: fresh, ?_, ?_, ?_, ?_⟩
      · rw [visitNbrs, if_neg hv, heq]
        simp
      · intro w hw
        rcases List.mem_cons.mp hw with rfl | hw'
        · exact ⟨List.mem_cons_self _ _, hv⟩
        · have hw2 := hmem w hw'
          exact ⟨List.mem_cons_of_mem _ hw2.1,
            fun hwv => hw2.2 (List.mem_append_left _ hwv)⟩
      · refine List.nodup_cons.mpr ⟨?_, hnd⟩
        intro hvf
        exact (hmem v hvf).2 (List.mem_append_right _ (List.mem_cons_self v []))
      · intro w hw
        rcases List.mem_cons.mp hw with rfl | hw'
        · exact List.mem_append_right _ (List.mem_cons_self _ _)
        · have hw2 := hcov w hw'
          simpa [List.append_assoc] using hw2

theorem bfs_step (E : List (Nat × Nat)) (u : Nat) (q vis : List Nat)
    (acc : List (Nat × Nat)) (hInv : BfsInv E (u :: q) vis acc) :
    BfsInv E (visitNbrs u (nbrs E u) q vis acc).1
      (visitNbrs u (nbrs E u) q vis acc).2.1
      (visitNbrs u (nbrs E u) q vis acc).2.2 ∧
    (visitNbrs u (nbrs E u) q vis acc).1.length +
        (univFin E \ (visitNbrs u (nbrs E u) q vis acc).2.1.toFinset).card + 1 =
      (u :: q).length + (univFin E \ vis.toFinset).card ∧
    (∀ v ∈ vis, v ∈ (visitNbrs u (nbrs E u) q vis acc).2.1) := by
  obtain ⟨fresh, heq, hmem, hnd, hcov⟩ := visitNbrs_spec u (nbrs E u) q vis acc
  obtain ⟨hvnd, hqv, hvacc, hreach, hconn, hclosed⟩ := hInv
  rw [heq]
  dsimp only
  have hu_vis : u ∈ vis := hqv u (List.mem_cons_self _ _)
  refine ⟨⟨?_, ?_, ?_, ?_, ?_, ?_⟩, ?_, ?_⟩
  · exact List.nodup_append.mpr ⟨hvnd, hnd, fun a ha haf => (hmem a haf).2 ha⟩
  · intro x hx
    rcases List.mem_append.mp hx with hx1 | hx2
    · exact List.mem_append_left _ (hqv x (List.mem_cons_of_mem u hx1))
    · exact List.mem_append_right _ hx2
  · rw [hvacc]
    simp [List.map_map, Function.comp_def]
  · intro w hw
    rcases List.mem_append.mp hw with hw1 | hw2
    · exact treeReach_mono (fun p hp => List.mem_append_left _ hp) (hreach w hw1)
    · exact Relation.ReflTransGen.tail
        (treeReach_mono (fun p hp => List.mem_append_left _ hp) (hreach u hu_vis))
        (List.mem_append_right _ (List.mem_map.mpr ⟨w, hw2, rfl⟩))
  · intro w hw
    rcases List.mem_append.mp hw with hw1 | hw2
    · exact hconn w hw1
    · exact Relation.ReflTransGen.tail (hconn u hu_vis) (nbrs_adj (hmem w hw2).1)
  · intro x hx
    rcases List.mem_append.mp hx with hx1 | hx2
    · rcases hclosed x hx1 with hxq | hxcl
      · rcases List.mem_cons.mp hxq with rfl | hxq'
        · exact Or.inr (fun v hv => hcov v hv)
        · exact Or.inl (List.mem_append_left _ hxq')
      · exact Or.inr (fun v hv => List.mem_append_left _ (hxcl v hv))
    · exact Or.inl (List.mem_append_right _ hx2)
  · have hfreshU : fresh.toFinset ⊆ univFin E \ vis.toFinset := by
      intro b hb
      have hbf := List.mem_toFinset.mp hb
      refine Finset.mem_sdiff.mpr ⟨?_, ?_⟩
      · exact List.mem_toFinset.mpr (nbrs_subset_nodes (hmem b hbf).1)
      · exact fun hbv => (hmem b hbf).2 (List.mem_toFinset.mp hbv)
    have hsd : univFin E \ (vis ++ fresh).toFinset =
        (univFin E \ vis.toFinset) \ fresh.toFinset := by
      ext b
      simp only [List.toFinset_append, Finset.mem_sdiff, Finset.mem_union]
      tauto
    have hcard : (univFin E \ (vis ++ fresh).toFinset).card =
        (univFin E \ vis.toFinset).card - fresh.length := by
      rw [hsd, Finset.card_sdiff hfreshU, List.toFinset_card_of_nodup hnd]
    have hge : fresh.length ≤ (univFin E \ vis.toFinset).card := by
      calc fresh.length = fresh.toFinset.card :=
            (List.toFinset_card_of_nodup hnd).symm
        _ ≤ _ := Finset.card_le_card hfreshU
    simp only [List.length_append, List.length_cons]
    omega
  · exact fun v hv => List.mem_append_left _ hv

theorem bfsLoop_final (E : List (Nat × Nat)) : ∀ (fuel : Nat) (queue vis : List Nat)
    (acc : List (Nat × Nat)),
    BfsInv E queue vis acc →
    queue.length + (univFin E \ vis.toFinset).card < fuel →
    BfsFinal E (bfsLoop E fuel queue vis acc).1 (bfsLoop E fuel queue vis acc).2 ∧
    (∀ v ∈ vis, v ∈ (bfsLoop E fuel queue vis acc).1)
  | 0, queue, vis, acc, _, hfuel => absurd hfuel (by omega)
  | fuel + 1, [], vis, acc, hInv, _ => by
    obtain ⟨hvnd, _, hshape, hreach, hconn, hclosed⟩ := hInv
    refine ⟨⟨hvnd, hshape, hreach, hconn, ?_⟩, fun v hv => hv⟩
    intro x hx v hv
    rcases hclosed x hx with hq | hcl
    · exact absurd hq (List.not_mem_nil x)
    · exact hcl v hv
  | fuel + 1, u :: q, vis, acc, hInv, hfuel => by
    obtain ⟨hInv', hmeas, hmono⟩ := bfs_step E u q vis acc hInv
    have hfuel' : (visitNbrs u (nbrs E u) q vis acc).1.length +
        (univFin E \ (visitNbrs u (nbrs E u) q vis acc).2.1.toFinset).card < fuel := by
      simp only [List.length_cons] at hfuel hmeas
      omega
    obtain ⟨hfin, hmono2⟩ := bfsLoop_final E fuel (visitNbrs u (nbrs E u) q vis acc).1
      (visitNbrs u (nbrs E u) q vis acc).2.1 (visitNbrs u (nbrs E u) q vis acc).2.2
      hInv' hfuel'
    exact ⟨hfin, fun v hv => hmono2 v (hmono v hv)⟩

theorem bfs_final_covers {E : List (Nat × Nat)} {vis : List Nat}
    {acc : List (Nat × Nat)} (hf : BfsFinal E vis acc) :
    ∀ x, uconn E 0 x → x ∈ vis := by
  obtain ⟨_, hshape, _, _, hclosed⟩ := hf
  intro x hx
  induction hx with
  | refl =>
    rw [hshape]
    exact List.mem_cons_self _ _
  | tail hb hr ih => exact hclosed _ ih _ (adj_nbrs hr)

/-! ## The sampling loop never empties its candidate pool -/

theorem prufer_pool_subset {n max_degree : Nat} {s : List Nat} {v : Nat}
    (h : v ∈ prufer_pool n max_degree s) : 1 ≤ v ∧ v ≤ n := by
  unfold prufer_pool at h
  have h1 := (List.mem_filter.mp h).1
  rcases List.mem_map.mp h1 with ⟨i, hi, rfl⟩
  have h2 := List.mem_range.mp hi
  omega

theorem prufer_pool_ne_nil (n max_degree : Nat) (s : List Nat)
    (hn : 1 ≤ n) (hdeg : 2 ≤ max_degree) (h0 : 0 ∈ s) (hlt : s.length < n) :
    prufer_pool n max_degree s ≠ [] := by
  intro hnil
  have hall : ∀ v ∈ (List.range n).map (· + 1), ¬ (s.count v < max_degree) := by
    intro v hv
    have hd := List.filter_eq_nil_iff.mp hnil v hv
    simpa using hd
  have hnodupP : ((List.range n).map (· + 1)).Nodup :=
    List.Nodup.map (fun _ _ hinj => by omega) (List.nodup_range n)
  have hcardP : ((List.range n).map (· + 1)).toFinset.card = n := by
    rw [List.toFinset_card_of_nodup hnodupP]
    simp
  have h0P : (0 : Nat) ∉ ((List.range n).map (· + 1)).toFinset := by
    simp
  have hext : ∑ v ∈ s.toFinset ∪ insert 0 ((List.range n).map (· + 1)).toFinset,
      s.count v = s.length := by
    rw [← List.sum_toFinset_count_eq_length s]
    symm
    apply Finset.sum_subset Finset.subset_union_left
    intro x _ hx
    exact List.count_eq_zero_of_not_mem
      (fun hmem => hx (List.mem_toFinset.mpr hmem))
  have hins : ∑ v ∈ insert 0 ((List.range n).map (· + 1)).toFinset, s.count v =
      s.count 0 + ∑ v ∈ ((List.range n).map (· + 1)).toFinset, s.count v :=
    Finset.sum_insert h0P
  have hle : ∑ v ∈ insert 0 ((List.range n).map (· + 1)).toFinset, s.count v ≤
      ∑ v ∈ s.toFinset ∪ insert 0 ((List.range n).map (· + 1)).toFinset, s.count v :=
    Finset.sum_le_sum_of_subset Finset.subset_union_right
  have hbig : 2 * n ≤ ∑ v ∈ ((List.range n).map (· + 1)).toFinset, s.count v := by
    have h2 : ∀ v ∈ ((List.range n).map (· + 1)).toFinset, 2 ≤ s.count v := by
      intro v hv
      have hvl := List.mem_toFinset.mp hv
      have hc := hall v hvl
      omega
    have hsmul := Finset.card_nsmul_le_sum
      ((List.range n).map (· + 1)).toFinset (fun v => s.count v) 2 h2
    rw [hcardP, smul_eq_mul] at hsmul
    omega
  have hc0 : 1 ≤ s.count 0 := List.count_pos_iff.mpr h0
  omega

theorem prufer_draw_loop_spec (n max_degree : Nat) (pick : List Nat → Nat)
    (hn : 1 ≤ n) (hdeg : 2 ≤ max_degree)
    (hpick : ∀ pool, pool ≠ [] → pick pool ∈ pool) :
    ∀ (fuel : Nat) (s : List Nat),
    0 ∈ s → (∀ v ∈ s, v ≤ n) → s.length ≤ n → n ≤ s.length + fuel →
    (prufer_draw_loop n max_degree pick fuel s).length = n ∧
    (∀ v ∈ prufer_draw_loop n max_degree pick fuel s, v ≤ n)
  | 0, s, _, hv, hle, hge => by
    rw [prufer_draw_loop]
    exact ⟨by omega, hv⟩
  | fuel + 1, s, h0, hv, hle, hge => by
    rw [prufer_draw_loop]
    by_cases hlt : s.length < n
    · rw [if_pos hlt]
      have hpool := prufer_pool_ne_nil n max_degree s hn hdeg h0 hlt
      have hpmem := hpick _ hpool
      obtain ⟨hp1, hp2⟩ := prufer_pool_subset hpmem
      apply prufer_draw_loop_spec n max_degree pick hn hdeg hpick fuel
      · exact List.mem_append_left _ h0
      · intro v hvm
        rcases List.mem_append.mp hvm with hvs | hvx
        · exact hv v hvs
        · rcases List.mem_singleton.mp hvx with rfl
          exact hp2
      · simp only [List.length_append, List.length_cons, List.length_nil]
        omega
      · simp only [List.length_append, List.length_cons, List.length_nil]
        omega
    · rw [if_neg hlt]
      exact ⟨by omega, hv⟩

/-! ## Claim theorems (except C2, developed further below) -/

/-- C1: for every expression built by this system (in every sympy
expression the `Add`/`Mul`/`Pow`/function nodes carry at least one
argument, captured by `arityPos`), reducing the two sequences returned by
`expr_to_postfix` with `postfix_to_expr` reconstructs the expression
exactly; the `sympify` evaluation of the built string only rewrites terms
to algebraically equal ones, so the source result is algebraically equal
to the input expression. -/
theorem postfix_roundtrip (e : SymExpr) (h : arityPos e = true) :
    postfix_to_expr (expr_to_postfix_tokens e).1 (expr_to_postfix_tokens e).2 =
      some e := by
  unfold postfix_to_expr
  rw [pf_run_tokens e [] h]
  rfl

/-- Witness for C1 at `Add(Mul(x0, 2), const0)`. -/
theorem postfix_roundtrip_witness :
    arityPos (SymExpr.app "Add" (.cons
      (.app "Mul" (.cons (.sym "x0") (.cons (.num 2) .nil)))
      (.cons (.sym "const0") .nil))) = true ∧
    postfix_to_expr
      (expr_to_postfix_tokens (SymExpr.app "Add" (.cons
        (.app "Mul" (.cons (.sym "x0") (.cons (.num 2) .nil)))
        (.cons (.sym "const0") .nil)))).1
      (expr_to_postfix_tokens (SymExpr.app "Add" (.cons
        (.app "Mul" (.cons (.sym "x0") (.cons (.num 2) .nil)))
        (.cons (.sym "const0") .nil)))).2 =
      some (SymExpr.app "Add" (.cons
        (.app "Mul" (.cons (.sym "x0") (.cons (.num 2) .nil)))
        (.cons (.sym "const0") .nil))) :=
  ⟨by decide, postfix_roundtrip _ (by decide)⟩

/-- C4: wrapping `const0 * x0 + const1` as an equation and calling `func`
with `X = [[2.0]]` and `constants = [3.0, 5.0]` returns the single row
value `3 * 2 + 5 = 11`. -/
theorem func_concrete :
    func (SymExpr.app "Add" (.cons
        (.app "Mul" (.cons (.sym "const0") (.cons (.sym "x0") .nil)))
        (.cons (.sym "const1") .nil)))
      [[2]] (some [3, 5]) = some [11] := by
  show some [0 + (1 * (3 : ℚ)) * 2 + 5] = some [11]
  norm_num

/-- C6: for every expression, `expr_to_postfix` and `expr_to_infix`
return token and arity sequences of equal length. -/
theorem tokens_arities_length (e : SymExpr) :
    (expr_to_postfix_tokens e).1.length = (expr_to_postfix_tokens e).2.length ∧
    (expr_to_infix_tokens e).1.length = (expr_to_infix_tokens e).2.length :=
  ⟨postfix_tokens_length_eq e, infix_tokens_length_eq e⟩

/-- C7 counterexample: on the wrapped expression `const0 + x0`, which
contains a constant symbol, `subs` with the constants argument absent is
*not* a no-op returning the expression: `numpy_to_sympy_constants(None, eq)`
evaluates `None[0]`, an uncaught `TypeError` (modelled as `none`). -/
theorem subs_none_counterexample :
    subs (SymExpr.app "Add" (.cons (.sym "const0") (.cons (.sym "x0") .nil)))
        none = none ∧
    subs (SymExpr.app "Add" (.cons (.sym "const0") (.cons (.sym "x0") .nil)))
        none ≠
      some (SymExpr.app "Add" (.cons (.sym "const0") (.cons (.sym "x0") .nil))) := by
  constructor
  · rfl
  · decide

/-- C7 amended: `subs` with the constants argument absent substitutes
nothing and returns the wrapped expression unchanged *when the wrapped
expression contains no constant symbols*; when it does contain constant
symbols the call raises a `TypeError` (`None` is not subscriptable)
instead. -/
theorem subs_none_noop_no_constants (e : SymExpr) (h : constants e = []) :
    subs e none = some e := by
  unfold subs numpy_to_sympy_constants
  rw [h]
  show some (substE e []) = some e
  rw [substE_nil]

/-- Witness for the amended C7 at the constant-free expression `x0`. -/
theorem subs_none_noop_no_constants_witness :
    constants (SymExpr.sym "x0") = [] ∧
    subs (SymExpr.sym "x0") none = some (SymExpr.sym "x0") :=
  ⟨by decide, subs_none_noop_no_constants _ (by decide)⟩

/-- C8: `derivative_wrt_x` never returns a value: its body evaluates
`NotImplemented("")`, and calling the non-callable `NotImplemented`
singleton raises `TypeError` — an uncaught crash rather than a clean
"not implemented" signal — exhibited concretely at `X = [[1.0]]`,
`constants = None`. -/
theorem derivative_wrt_x_always_type_error :
    (∀ (X : List (List ℚ)) (cs : Option (List ℚ)),
      derivative_wrt_x X cs = PyResult.typeError) ∧
    derivative_wrt_x [[1]] none = PyResult.typeError :=
  ⟨fun _ _ => rfl, rfl⟩

/-- C9: at a node whose operator label is the empty string and which has
two or more children, `graph_to_expression` recurses into the first child
only — the result coincides with that of the same node with the extra
children removed, and equals the first child's expression — and no error
is signalled (the conversion is total on such trees). -/
theorem empty_label_first_child (c : LTree) (cs : LTreeList)
    (_h : cs ≠ LTreeList.nil) :
    graph_to_expression_aux (LTree.node [] (LTreeList.cons c cs)) =
      graph_to_expression_aux c ∧
    graph_to_expression_aux (LTree.node [] (LTreeList.cons c cs)) =
      graph_to_expression_aux (LTree.node [] (LTreeList.cons c LTreeList.nil)) := by
  constructor <;> simp [graph_to_expression_aux]

/-- Witness for C9 at an empty-labeled node with two leaf children. -/
theorem empty_label_first_child_witness :
    graph_to_expression_aux (LTree.node [] (LTreeList.cons (LTree.node ['a'] .nil)
        (LTreeList.cons (LTree.node ['b'] .nil) .nil))) =
      graph_to_expression_aux (LTree.node ['a'] .nil) ∧
    graph_to_expression_aux (LTree.node [] (LTreeList.cons (LTree.node ['a'] .nil)
        (LTreeList.cons (LTree.node ['b'] .nil) .nil))) =
      graph_to_expression_aux (LTree.node []
        (LTreeList.cons (LTree.node ['a'] .nil) LTreeList.nil)) :=
  empty_label_first_child _ _ (by simp)

/-- C10: when the stack reduction of `postfix_to_expr` completes with more
than one item on the stack, the function raises no error and returns the
earliest-pushed remaining item (Python's `stack[0]` is the bottom of an
append/pop stack), silently discarding the others. -/
theorem postfix_extra_stack_items (post : List Tok) (post_arity : List Nat)
    (x : SymExpr) (rest : List SymExpr)
    (hrun : pf_run (post.zip post_arity) [] = some (x :: rest))
    (_hmore : rest ≠ []) :
    postfix_to_expr post post_arity = some x := by
  unfold postfix_to_expr
  rw [hrun]
  rfl

/-- Witness for C10: two leaf tokens and no operator leave the stack as
`[x0, x1]`; the result is `x0`, the earliest-pushed item. -/
theorem postfix_extra_stack_items_witness :
    pf_run ([Tok.str "x0", Tok.str "x1"].zip [0, 0]) [] =
      some [SymExpr.sym "x0", SymExpr.sym "x1"] ∧
    postfix_to_expr [Tok.str "x0", Tok.str "x1"] [0, 0] =
      some (SymExpr.sym "x0") :=
  ⟨rfl, postfix_extra_stack_items _ _ _ _ rfl (by simp)⟩

/-- C5: `enumerate_constants_in_expression` runs the scanner `enumAux`
from counter `0`; the scanner (i) on a string that splits as
`a ++ Symbol('const') ++ b` with no occurrence of the pattern starting
inside `a`, copies `a` unchanged, emits `Symbol('const{n}')` for the
current counter value `n`, and continues on `b` with the counter
incremented once — so the i-th occurrence (0-based, left to right,
counted per occurrence even for repeated identical occurrences) becomes
`Symbol('const{i}')` — and (ii) returns a string with no occurrence of the
pattern unchanged. -/
theorem enumerate_constants_spec :
    (∀ s : List Char, enumerate_constants_in_expression s = enumAux s 0) ∧
    (∀ (a b : List Char) (n : Nat),
      (∀ i, i < a.length → ¬ occursAt constPat (a ++ constPat ++ b) i) →
      enumAux (a ++ constPat ++ b) n = a ++ constRepl n ++ enumAux b (n + 1)) ∧
    (∀ (s : List Char) (n : Nat),
      (∀ i, ¬ occursAt constPat s i) → enumAux s n = s) :=
  ⟨fun _ => rfl, enumAux_split, enumAux_no_match⟩

/-- Witness for C5 splitting `( Symbol('const') )` around its single
occurrence. -/
theorem enumerate_constants_spec_witness :
    enumAux (['('] ++ constPat ++ [')']) 0 =
      ['('] ++ constRepl 0 ++ enumAux [')'] 1 :=
  enumerate_constants_spec.2.1 ['('] [')'] 0 (by decide)

/-- C3: let `e` be the engine-simplified expression of the raw tree string
(`simp1` models the external `simplify ∘ sympify`), in which every
constant symbol is the bare base name `const` (as the collapse step and
the leaf labels guarantee).  The renumbering pass rewrites the
`const`-leaves, in textual (preorder) first-occurrence order, to exactly
`const0, const1, ..., const(k-1)` where `k` counts the occurrences; and
provided the final simplification `simp2` preserves the set of symbol
names (an algebraic-engine contract), the set of distinct constant-symbol
names of the returned expression is exactly
`{const0, ..., const(k-1)}` — consecutive indices from 0, no gaps. -/
theorem graph_expression_constant_names (simp1 : List Char → SymExpr)
    (simp2 : SymExpr → SymExpr) (t : LTree)
    (hbase : ∀ nm ∈ constNames (simp1 (graph_to_expression_aux t)),
      nm = CONST_BASE_NAME)
    (hpres : ∀ x : SymExpr,
      (constNames (simp2 x)).toFinset = (constNames x).toFinset) :
    constNames (renumberE (simp1 (graph_to_expression_aux t)) 0).1 =
      (List.range (constLeafCount (simp1 (graph_to_expression_aux t)))).map
        (fun i => CONST_BASE_NAME ++ toString i) ∧
    (constNames (graph_to_expression simp1 simp2 t)).toFinset =
      ((List.range (constLeafCount (simp1 (graph_to_expression_aux t)))).map
        (fun i => CONST_BASE_NAME ++ toString i)).toFinset := by
  have h1 := renumberE_names (simp1 (graph_to_expression_aux t)) 0 hbase
  rw [List.range_eq_range']
  refine ⟨h1, ?_⟩
  unfold graph_to_expression
  rw [hpres, h1]

/-- Witness for C3 at the simplified expression `Mul(const, const)` with
the identity as the final simplification. -/
theorem graph_expression_constant_names_witness :
    constNames (renumberE ((fun _ => SymExpr.app "Mul"
        (.cons (.sym "const") (.cons (.sym "const") .nil)))
        (graph_to_expression_aux (LTree.node ['z'] .nil))) 0).1 =
      (List.range (constLeafCount ((fun _ => SymExpr.app "Mul"
        (.cons (.sym "const") (.cons (.sym "const") .nil)))
        (graph_to_expression_aux (LTree.node ['z'] .nil))))).map
        (fun i => CONST_BASE_NAME ++ toString i) ∧
    (constNames (graph_to_expression (fun _ => SymExpr.app "Mul"
        (.cons (.sym "const") (.cons (.sym "const") .nil))) id
        (LTree.node ['z'] .nil))).toFinset =
      ((List.range (constLeafCount ((fun _ => SymExpr.app "Mul"
        (.cons (.sym "const") (.cons (.sym "const") .nil)))
        (graph_to_expression_aux (LTree.node ['z'] .nil))))).map
        (fun i => CONST_BASE_NAME ++ toString i)).toFinset :=
  graph_expression_constant_names
    (fun _ => SymExpr.app "Mul" (.cons (.sym "const") (.cons (.sym "const") .nil)))
    id (LTree.node ['z'] .nil) (by decide) (fun _ => rfl)

/-- C2: modelling randomness by a pool-picking oracle and a shuffling
oracle (any choices numpy's weighted sampling and shuffle could make),
`generate_random_tree_with_prior_on_arity(n, max_degree, degreeness)`
with `n ≥ 1` and `max_degree ≥ 2` returns a directed tree on exactly
`n + 2` nodes (the visited list has length `n + 2` and holds precisely
the nodes `0, ..., n + 1`), in which node 0 has no incoming edge and
every node is reachable from node 0 along the directed edges. -/
theorem generate_tree_spec (n max_degree : Nat)
    (pick : List Nat → Nat) (shuffle : List Nat → List Nat)
    (hn : 1 ≤ n) (hdeg : 2 ≤ max_degree)
    (hpick : ∀ pool, pool ≠ [] → pick pool ∈ pool)
    (hshuffle : ∀ l : List Nat, (shuffle l).Perm l) :
    (generate_random_tree_with_prior_on_arity n max_degree pick shuffle).1.length =
      n + 2 ∧
    (∀ v, v ∈ (generate_random_tree_with_prior_on_arity n max_degree pick shuffle).1 ↔
      v < n + 2) ∧
    (∀ p ∈ (generate_random_tree_with_prior_on_arity n max_degree pick shuffle).2,
      p.2 ≠ 0) ∧
    (∀ v ∈ (generate_random_tree_with_prior_on_arity n max_degree pick shuffle).1,
      treeReach (generate_random_tree_with_prior_on_arity n max_degree pick shuffle).2
        0 v) := by
  obtain ⟨hslen, hsval⟩ := prufer_draw_loop_spec n max_degree pick hn hdeg hpick n [0]
    (by simp) (by intro v hv; simp at hv; omega) (by simp; omega) (by simp)
  have hperm := hshuffle (prufer_draw_loop n max_degree pick n [0])
  have hshlen : (shuffle (prufer_draw_loop n max_degree pick n [0])).length = n := by
    rw [hperm.length_eq, hslen]
  have hseq_eq : (shuffle (prufer_draw_loop n max_degree pick n [0])).take n =
      shuffle (prufer_draw_loop n max_degree pick n [0]) :=
    List.take_of_length_le (by omega)
  have hshval : ∀ v ∈ shuffle (prufer_draw_loop n max_degree pick n [0]), v ≤ n :=
    fun v hv => hsval v (hperm.mem_iff.mp hv)
  have hgen : generate_random_tree_with_prior_on_arity n max_degree pick shuffle =
      bfs_tree (decodeAux (shuffle (prufer_draw_loop n max_degree pick n [0]))
        (List.range (n + 2))) 0 := by
    show bfs_tree (decodeAux
        ((shuffle (prufer_draw_loop n max_degree pick n [0])).take n)
        (List.range
          (((shuffle (prufer_draw_loop n max_degree pick n [0])).take n).length + 2)))
        0 = _
    rw [hseq_eq, hshlen]
  rw [hgen]
  set sh := shuffle (prufer_draw_loop n max_degree pick n [0]) with hsh
  set E := decodeAux sh (List.range (n + 2)) with hE
  obtain ⟨hEmem, hEconn⟩ := decode_props sh (List.range (n + 2))
    (List.nodup_range _) (by simp [hshlen])
    (fun b hb => List.mem_range.mpr (by have := hshval b hb; omega))
  have hnodesE : ∀ v ∈ nodesOfE E, v < n + 2 := by
    intro v hv
    unfold nodesOfE at hv
    rcases List.mem_append.mp hv with h1 | h2
    · rcases List.mem_map.mp h1 with ⟨p, hp, rfl⟩
      exact List.mem_range.mp (hEmem p hp).1
    · rcases List.mem_map.mp h2 with ⟨p, hp, rfl⟩
      exact List.mem_range.mp (hEmem p hp).2
  have hInv0 : BfsInv E [0] [0] [] := by
    refine ⟨List.nodup_singleton 0, fun x hx => hx, by simp, ?_, ?_, ?_⟩
    · intro v hv
      rcases List.mem_singleton.mp hv with rfl
      exact Relation.ReflTransGen.refl
    · intro v hv
      rcases List.mem_singleton.mp hv with rfl
      exact Relation.ReflTransGen.refl
    · intro x hx
      exact Or.inl hx
  have hfuel0 : ([0] : List Nat).length +
      (univFin E \ ([0] : List Nat).toFinset).card < 2 * E.length + 2 := by
    have h1 : (univFin E \ ([0] : List Nat).toFinset).card ≤ (univFin E).card :=
      Finset.card_le_card Finset.sdiff_subset
    have h2 : (univFin E).card ≤ (nodesOfE E).length := List.toFinset_card_le _
    have h3 : (nodesOfE E).length = 2 * E.length := by
      unfold nodesOfE
      simp only [List.length_append, List.length_map]
      omega
    simp only [List.length_singleton]
    omega
  obtain ⟨hfin, _⟩ := bfsLoop_final E (2 * E.length + 2) [0] [0] [] hInv0 hfuel0
  have hbfs : bfs_tree E 0 = bfsLoop E (2 * E.length + 2) [0] [0] [] := rfl
  rw [hbfs]
  obtain ⟨hvnd, hshape, hreach, hconnv, hclosed⟩ := hfin
  have hviff : ∀ v, v ∈ (bfsLoop E (2 * E.length + 2) [0] [0] []).1 ↔ v < n + 2 := by
    intro v
    constructor
    · intro hv
      rcases uconn_mem_nodes (hconnv v hv) with rfl | hvn
      · omega
      · exact hnodesE v hvn
    · intro hv
      apply bfs_final_covers ⟨hvnd, hshape, hreach, hconnv, hclosed⟩
      exact hEconn 0 (List.mem_range.mpr (by omega)) v (List.mem_range.mpr hv)
  have hlen : (bfsLoop E (2 * E.length + 2) [0] [0] []).1.length = n + 2 := by
    have hset : (bfsLoop E (2 * E.length + 2) [0] [0] []).1.toFinset =
        (List.range (n + 2)).toFinset := by
      ext v
      simp only [List.mem_toFinset, List.mem_range]
      exact hviff v
    have h1 := List.toFinset_card_of_nodup hvnd
    have h2 : (List.range (n + 2)).toFinset.card = n + 2 := by
      rw [List.toFinset_card_of_nodup (List.nodup_range _), List.length_range]
    rw [hset] at h1
    omega
  have htarget : ∀ p ∈ (bfsLoop E (2 * E.length + 2) [0] [0] []).2, p.2 ≠ 0 := by
    intro p hp hp0
    have h0m : (0 : Nat) ∈ (bfsLoop E (2 * E.length + 2) [0] [0] []).2.map Prod.snd :=
      List.mem_map.mpr ⟨p, hp, hp0⟩
    have hnd2 := hvnd
    rw [hshape] at hnd2
    exact (List.nodup_cons.mp hnd2).1 h0m
  exact ⟨hlen, hviff, htarget, hreach⟩

/-- Witness for C2 at `n = 1`, `max_degree = 2`, with the head-picking
and identity-shuffle oracles. -/
theorem generate_tree_spec_witness :
    (generate_random_tree_with_prior_on_arity 1 2
      (fun pool => pool.headD 0) id).1.length = 1 + 2 ∧
    (∀ v, v ∈ (generate_random_tree_with_prior_on_arity 1 2
      (fun pool => pool.headD 0) id).1 ↔ v < 1 + 2) ∧
    (∀ p ∈ (generate_random_tree_with_prior_on_arity 1 2
      (fun pool => pool.headD 0) id).2, p.2 ≠ 0) ∧
    (∀ v ∈ (generate_random_tree_with_prior_on_arity 1 2
      (fun pool => pool.headD 0) id).1,
      treeReach (generate_random_tree_with_prior_on_arity 1 2
        (fun pool => pool.headD 0) id).2 0 v) :=
  generate_tree_spec 1 2 (fun pool => pool.headD 0) id (by omega) (by omega)
    (fun pool h => by
      cases pool with
      | nil => exact absurd rfl h
      | cons a t => exact List.mem_cons_self a t)
    (fun l => List.Perm.refl l)

end Robo
